import Mathlib

/-!
Shallow embedding of the structural validator in mesonbuild/cargo/validate.py.

The Python source compiles schema descriptors (runtime typing objects,
classified by the helper predicates is_union, is_typed_dict, is_literal,
is_init_var, is_generic_collection, is_tuple, is_type, is_dataclass, ...)
into boolean predicates over dynamic values, memoizing each compiled
predicate in the process-wide dict VALIDATORS.

Here the closed set of descriptor classifications becomes the inductive
type Desc, dynamic Python values become the inductive type Value, the
recursive compiler validator/get_validator becomes the function validate
(denotational, cache-free), validateE (the same recursion in an exception
monad, showing no evaluation step can raise), and compileC (the cache-
threading compiler mirroring VALIDATORS).
-/

namespace CargoValidate

/-- The payload of a Python float value. The validator only inspects type
tags and literal equality, so the payload is modelled as a rational. -/
abbrev PyFloat := Rat

/-- Dynamic (decoded) Python runtime values, the inputs to the compiled
predicates. A dict is a list of key/value entries with distinct keys; a
class object carries its name and the names of its proper superclasses,
an instance carries the name of its class and that class's superclasses. -/
inductive Value where
  | none
  | bool (b : Bool)
  | int (n : Int)
  | float (q : PyFloat)
  | complex (re im : PyFloat)
  | str (s : String)
  | bytes (bs : List Nat)
  | list (xs : List Value)
  | tuple (xs : List Value)
  | set (xs : List Value)
  | frozenset (xs : List Value)
  | dict (entries : List (Value × Value))
  | typeObj (name : String) (supers : List String)
  | inst (name : String) (supers : List String)

/-- The classes the source passes to isinstance: the scalar leaf types,
the collection origins extracted by extract_origin_collection, the
metaclass type, and declared (data)classes referred to by name. -/
inductive PyClass where
  | boolC
  | intC
  | floatC
  | complexC
  | strC
  | bytesC
  | noneC
  | listC
  | setC
  | frozensetC
  | sequenceC
  | tupleC
  | mappingC
  | typeC
  | cls (name : String)
deriving DecidableEq, Repr

/-- Python isinstance on the modelled value universe. bool is a subclass
of int; str, bytes, list and tuple are the registered Sequence instances;
dict is the Mapping instance; an instance of a declared class is also an
instance of each superclass. -/
def isinst : Value → PyClass → Bool
  | .bool _, .boolC => true
  | .bool _, .intC => true
  | .int _, .intC => true
  | .float _, .floatC => true
  | .complex _ _, .complexC => true
  | .str _, .strC => true
  | .str _, .sequenceC => true
  | .bytes _, .bytesC => true
  | .bytes _, .sequenceC => true
  | .none, .noneC => true
  | .list _, .listC => true
  | .list _, .sequenceC => true
  | .tuple _, .tupleC => true
  | .tuple _, .sequenceC => true
  | .set _, .setC => true
  | .frozenset _, .frozensetC => true
  | .dict _, .mappingC => true
  | .typeObj _ _, .typeC => true
  | .inst n supers, .cls m => n == m || supers.contains m
  | _, _ => false

/-- Iterating a Python value: lists, tuples and sets yield their elements,
a str yields its one-character substrings, bytes yields ints, a dict
yields its keys. The validator only iterates values already guarded by an
isinstance check on a container class. -/
def pyElems : Value → List Value
  | .list xs => xs
  | .tuple xs => xs
  | .set xs => xs
  | .frozenset xs => xs
  | .str s => s.data.map fun c => .str (String.mk [c])
  | .bytes bs => bs.map fun n => .int (Int.ofNat n)
  | .dict es => es.map fun e => e.1
  | _ => []

/-- The scalar values admitted as arguments of a Literal descriptor
(Python permits ints, booleans, strings, bytes and None). -/
inductive LitVal where
  | none
  | bool (b : Bool)
  | int (n : Int)
  | str (s : String)
  | bytes (bs : List Nat)
deriving DecidableEq, Repr

/-- Python equality between a runtime value and a literal scalar, as used
by the membership test value in generic. Python equality identifies a
boolean with its integer value (True == 1) and compares numbers across
numeric types, so a float or complex value can equal an int literal. -/
def litEq : Value → LitVal → Bool
  | .none, .none => true
  | .bool b, .bool b2 => b == b2
  | .bool b, .int n => (if b then (1 : Int) else 0) == n
  | .int n, .bool b => n == (if b then (1 : Int) else 0)
  | .int n, .int m => n == m
  | .float q, .int n => q == (n : Rat)
  | .float q, .bool b => q == (if b then (1 : Rat) else 0)
  | .complex r i, .int n => i == 0 && r == (n : Rat)
  | .complex r i, .bool b => i == 0 && r == (if b then (1 : Rat) else 0)
  | .str s, .str t => s == t
  | .bytes a, .bytes b => a == b
  | _, _ => false

/-- Python equality between a dict key encountered in a validated value
and a field-name string of a TypedDict: only an equal str matches. -/
def keyMatches : Value → String → Bool
  | .str t, s => t == s
  | _, _ => false

/-- The origins a parameterless generic collection descriptor can carry
(the is_generic_collection branch with no type arguments). -/
inductive CollOrigin where
  | list
  | set
  | frozenset
  | sequence
  | tuple
  | mapping
deriving DecidableEq, Repr

/-- The class an untyped collection origin is isinstance-checked against. -/
def CollOrigin.toClass : CollOrigin → PyClass
  | .list => .listC
  | .set => .setC
  | .frozenset => .frozensetC
  | .sequence => .sequenceC
  | .tuple => .tupleC
  | .mapping => .mappingC

/-- The origins of a single-parameter generic collection (the final
is_generic_collection branch; Mapping and tuple have their own branches). -/
inductive CollKind where
  | list
  | set
  | frozenset
  | sequence
deriving DecidableEq, Repr

/-- The class a typed collection origin is isinstance-checked against. -/
def CollKind.toClass : CollKind → PyClass
  | .list => .listC
  | .set => .setC
  | .frozenset => .frozensetC
  | .sequence => .sequenceC

/-- The scalar leaf types reaching the final fallback of get_validator. -/
inductive Prim where
  | bool
  | int
  | float
  | complex
  | str
  | bytes
  | noneType
deriving DecidableEq, Repr

/-- The class a scalar descriptor is isinstance-checked against. -/
def Prim.toClass : Prim → PyClass
  | .bool => .boolC
  | .int => .intC
  | .float => .floatC
  | .complex => .complexC
  | .str => .strC
  | .bytes => .bytesC
  | .noneType => .noneC

/-- Schema descriptors: one constructor per classification taken by
get_validator / typeddict_validator in the source.
any is T.Any; union is is_union with its extracted members; typedDict is
is_typed_dict carrying the totality flag, the field table from
get_type_hints and the explicitly Required-marked names; newtype is
is_new_type; literal is is_literal with its extracted values; initVar is
is_init_var; collUntyped is a generic collection with no type arguments;
mapping is a Mapping origin with key/value arguments; the three tuple
constructors are the three is_tuple branches (Tuple with an empty-tuple
argument, Tuple of fixed arity, Tuple with a trailing ellipsis); coll is
any other single-parameter collection; typeOf is is_type, optionally
bounded by a class name; record is is_dataclass, referring to the
dataclass by name only; scalar is the final isinstance fallback. -/
inductive Desc where
  | any
  | union (ms : List Desc)
  | typedDict (total : Bool) (fields : List (String × Desc)) (required : List String)
  | newtype (underlying : Desc)
  | literal (vals : List LitVal)
  | initVar (inner : Desc)
  | collUntyped (origin : CollOrigin)
  | mapping (key val : Desc)
  | tupleEmpty
  | tupleVariadic (d : Desc)
  | tupleFixed (ds : List Desc)
  | coll (kind : CollKind) (elem : Desc)
  | typeOf (bound : Option String)
  | record (name : String)
  | scalar (p : Prim)

/-- issubclass of a runtime value (expected to be a class object) against
a bound class name, as in the bounded is_type branch. -/
def issubBound : Value → String → Bool
  | .typeObj n supers, b => n == b || supers.contains b
  | _, _ => false

/-- Python truthiness negation, the not value test of the empty-tuple
lambda: empty containers, zero numbers, the empty string and None are
falsy; class objects and instances are truthy. Total on all values. -/
def pyFalsy : Value → Bool
  | .none => true
  | .bool b => !b
  | .int n => n == 0
  | .float q => q == 0
  | .complex r i => r == 0 && i == 0
  | .str s => s.isEmpty
  | .bytes bs => bs.isEmpty
  | .list xs => xs.isEmpty
  | .tuple xs => xs.isEmpty
  | .set xs => xs.isEmpty
  | .frozenset xs => xs.isEmpty
  | .dict es => es.isEmpty
  | .typeObj _ _ => false
  | .inst _ _ => false

mutual

/-- The denotation of a compiled predicate: validate d v is the boolean
the predicate compiled by get_validator for descriptor d returns on value
v. Each equation mirrors one compiled lambda of the source; only a dict
is a Mapping instance, so the Mapping-guarded lambdas match on dict. -/
def validate : Desc → Value → Bool
  | .any, _ => true
  | .union ms, v => validateAny ms v
  | .typedDict total fields required, .dict es =>
      required.all (fun k => es.any fun e => keyMatches e.1 k) &&
      validateItems (!total) fields es
  | .typedDict _ _ _, _ => false
  | .newtype u, v => validate u v
  | .literal vals, v => vals.any fun u => litEq v u
  | .initVar inner, v => validate inner v
  | .collUntyped origin, v => isinst v origin.toClass
  | .mapping kd vd, .dict es => validateMapItems kd vd es
  | .mapping _ _, _ => false
  | .tupleEmpty, v => isinst v .tupleC && pyFalsy v
  | .tupleVariadic d, v => isinst v .tupleC && validateAll d (pyElems v)
  | .tupleFixed ds, v =>
      isinst v .tupleC && (pyElems v).length == ds.length &&
      validateFixed ds (pyElems v)
  | .coll kind elem, v => isinst v kind.toClass && validateAll elem (pyElems v)
  | .typeOf Option.none, v => isinst v .typeC
  | .typeOf (some b), v => isinst v .typeC && issubBound v b
  | .record n, v => isinst v (.cls n)
  | .scalar .complex, v => isinst v .intC || isinst v .floatC || isinst v .complexC
  | .scalar .float, v => isinst v .intC || isinst v .floatC
  | .scalar p, v => isinst v p.toClass
termination_by d v => (sizeOf d, sizeOf v)

/-- any(v(value) for v in validators) over the members of a union. -/
def validateAny : List Desc → Value → Bool
  | [], _ => false
  | m :: ms, v => validate m v || validateAny ms v
termination_by ms v => (sizeOf ms, sizeOf v)

/-- all(v(item) for item in value) for a homogeneous element descriptor. -/
def validateAll : Desc → List Value → Bool
  | _, [] => true
  | d, x :: xs => validate d x && validateAll d xs
termination_by d xs => (sizeOf d, sizeOf xs)

/-- all(v(item) for item, v in zip(value, validators)) for a fixed tuple. -/
def validateFixed : List Desc → List Value → Bool
  | d :: ds, x :: xs => validate d x && validateFixed ds xs
  | _, _ => true
termination_by ds xs => (sizeOf ds, sizeOf xs)

/-- all(kv(k) and vv(v) for k, v in value.items()) for a Mapping. -/
def validateMapItems : Desc → Desc → List (Value × Value) → Bool
  | _, _, [] => true
  | kd, vd, e :: es => validate kd e.1 && validate vd e.2 && validateMapItems kd vd es
termination_by kd vd es => (1 + sizeOf kd + sizeOf vd, sizeOf es)

/-- The per-entry loop of typeddict_validator: for each entry of the
value, find the declared field matching the key and apply its predicate;
an undeclared key yields dflt (false when total, true when not). -/
def validateItems (dflt : Bool) : List (String × Desc) → List (Value × Value) → Bool
  | _, [] => true
  | fields, (k, x) :: es => validateItem dflt fields k x && validateItems dflt fields es
termination_by fields es => (sizeOf fields, sizeOf es)

/-- k in validators and validators[k](v) (closed), respectively
k not in validators or validators[k](v) (open), for one dict entry. -/
def validateItem (dflt : Bool) : List (String × Desc) → Value → Value → Bool
  | [], _, _ => dflt
  | (s, fd) :: fields, k, x =>
      if keyMatches k s then validate fd x else validateItem dflt fields k x
termination_by fields k _ => (sizeOf fields, sizeOf k)

end

/-! The same recursion in an exception monad. Every operation a compiled
predicate performs on the incoming value that can raise in Python —
value.items(), iter(value), len(value) — is modelled as a fallible
accessor, and each accessor is reached only behind the isinstance guard
the source places before it. -/

/-- value.items(): raises on anything that is not a mapping. -/
def pyItemsE : Value → Except String (List (Value × Value))
  | .dict es => .ok es
  | _ => .error "object is not a mapping"

/-- iter(value): raises on a non-iterable value. -/
def pyIterE : Value → Except String (List Value)
  | .list xs => .ok xs
  | .tuple xs => .ok xs
  | .set xs => .ok xs
  | .frozenset xs => .ok xs
  | .str s => .ok (s.data.map fun c => .str (String.mk [c]))
  | .bytes bs => .ok (bs.map fun n => .int (Int.ofNat n))
  | .dict es => .ok (es.map fun e => e.1)
  | _ => .error "object is not iterable"

/-- len(value): raises on an unsized value. -/
def pyLenE (v : Value) : Except String Nat :=
  match pyIterE v with
  | .ok xs => .ok xs.length
  | .error e => .error e

mutual

/-- Evaluation of the compiled predicate for d on v with every fallible
value operation explicit: the result is an exception or a boolean. -/
def validateE : Desc → Value → Except String Bool
  | .any, _ => .ok true
  | .union ms, v => validateAnyE ms v
  | .typedDict total fields required, v =>
      if isinst v .mappingC then
        match pyItemsE v with
        | .error e => .error e
        | .ok es =>
            if required.all (fun k => es.any fun e => keyMatches e.1 k) then
              validateItemsE (!total) fields es
            else .ok false
      else .ok false
  | .newtype u, v => validateE u v
  | .literal vals, v => .ok (vals.any fun u => litEq v u)
  | .initVar inner, v => validateE inner v
  | .collUntyped origin, v => .ok (isinst v origin.toClass)
  | .mapping kd vd, v =>
      if isinst v .mappingC then
        match pyItemsE v with
        | .error e => .error e
        | .ok es => validateMapItemsE kd vd es
      else .ok false
  | .tupleEmpty, v => .ok (isinst v .tupleC && pyFalsy v)
  | .tupleVariadic d, v =>
      if isinst v .tupleC then
        match pyIterE v with
        | .error e => .error e
        | .ok xs => validateAllE d xs
      else .ok false
  | .tupleFixed ds, v =>
      if isinst v .tupleC then
        match pyLenE v with
        | .error e => .error e
        | .ok n =>
            if n == ds.length then
              match pyIterE v with
              | .error e => .error e
              | .ok xs => validateFixedE ds xs
            else .ok false
      else .ok false
  | .coll kind elem, v =>
      if isinst v kind.toClass then
        match pyIterE v with
        | .error e => .error e
        | .ok xs => validateAllE elem xs
      else .ok false
  | .typeOf Option.none, v => .ok (isinst v .typeC)
  | .typeOf (some b), v => .ok (isinst v .typeC && issubBound v b)
  | .record n, v => .ok (isinst v (.cls n))
  | .scalar .complex, v => .ok (isinst v .intC || isinst v .floatC || isinst v .complexC)
  | .scalar .float, v => .ok (isinst v .intC || isinst v .floatC)
  | .scalar p, v => .ok (isinst v p.toClass)
termination_by d v => (sizeOf d, sizeOf v)

/-- Short-circuiting any() over union members, with exceptions explicit. -/
def validateAnyE : List Desc → Value → Except String Bool
  | [], _ => .ok false
  | m :: ms, v =>
      match validateE m v with
      | .error e => .error e
      | .ok true => .ok true
      | .ok false => validateAnyE ms v
termination_by ms v => (sizeOf ms, sizeOf v)

/-- Short-circuiting all() over elements, with exceptions explicit. -/
def validateAllE : Desc → List Value → Except String Bool
  | _, [] => .ok true
  | d, x :: xs =>
      match validateE d x with
      | .error e => .error e
      | .ok false => .ok false
      | .ok true => validateAllE d xs
termination_by d xs => (sizeOf d, sizeOf xs)

/-- Short-circuiting all() over a zip of elements with fixed-tuple
member descriptors, with exceptions explicit. -/
def validateFixedE : List Desc → List Value → Except String Bool
  | d :: ds, x :: xs =>
      match validateE d x with
      | .error e => .error e
      | .ok false => .ok false
      | .ok true => validateFixedE ds xs
  | _, _ => .ok true
termination_by ds xs => (sizeOf ds, sizeOf xs)

/-- Short-circuiting all() over mapping entries, with exceptions
explicit. -/
def validateMapItemsE : Desc → Desc → List (Value × Value) → Except String Bool
  | _, _, [] => .ok true
  | kd, vd, e :: es =>
      match validateE kd e.1 with
      | .error e2 => .error e2
      | .ok false => .ok false
      | .ok true =>
          match validateE vd e.2 with
          | .error e2 => .error e2
          | .ok false => .ok false
          | .ok true => validateMapItemsE kd vd es
termination_by kd vd es => (sizeOf kd + sizeOf vd, sizeOf es)
decreasing_by
  all_goals first
    | decreasing_tactic
    | (simp_wf
       first
         | (have h1 : 0 < sizeOf vd := by cases vd <;> simp_arith
            apply Prod.Lex.left
            omega)
         | (have h2 : 0 < sizeOf kd := by cases kd <;> simp_arith
            apply Prod.Lex.left
            omega))

/-- Short-circuiting all() over the entries of a validated TypedDict
value, with exceptions explicit. -/
def validateItemsE (dflt : Bool) : List (String × Desc) → List (Value × Value) → Except String Bool
  | _, [] => .ok true
  | fields, (k, x) :: es =>
      match validateItemE dflt fields k x with
      | .error e => .error e
      | .ok false => .ok false
      | .ok true => validateItemsE dflt fields es
termination_by fields es => (sizeOf fields, sizeOf es)

/-- One TypedDict entry, with exceptions explicit. -/
def validateItemE (dflt : Bool) : List (String × Desc) → Value → Value → Except String Bool
  | [], _, _ => .ok dflt
  | (s, fd) :: fields, k, x =>
      if keyMatches k s then validateE fd x else validateItemE dflt fields k x
termination_by fields k _ => (sizeOf fields, sizeOf k)

end

mutual

/-- Exception-aware evaluation always returns the boolean denotation:
no fallible value operation is ever reached on a mismatching value. -/
theorem validateE_ok (d : Desc) (v : Value) : validateE d v = .ok (validate d v) := by
  cases d with
  | any => simp [validateE, validate]
  | union ms =>
      simp only [validateE, validate]
      exact validateAnyE_ok ms v
  | typedDict total fields required =>
      have hItems : ∀ es, validateItemsE (!total) fields es =
          .ok (validateItems (!total) fields es) :=
        fun es => validateItemsE_ok (!total) fields es
      cases v
      case dict es =>
        cases hreq : required.all (fun k => es.any fun e => keyMatches e.1 k) <;>
          simp [validateE, validate, isinst, pyItemsE, hreq, hItems]
      all_goals simp [validateE, validate, isinst]
  | newtype u =>
      simp only [validateE, validate]
      exact validateE_ok u v
  | literal vals => simp [validateE, validate]
  | initVar inner =>
      simp only [validateE, validate]
      exact validateE_ok inner v
  | collUntyped origin => simp [validateE, validate]
  | mapping kd vd =>
      have hMap : ∀ es, validateMapItemsE kd vd es = .ok (validateMapItems kd vd es) :=
        fun es => validateMapItemsE_ok kd vd es
      cases v <;> simp [validateE, validate, isinst, pyItemsE, hMap]
  | tupleEmpty => simp [validateE, validate]
  | tupleVariadic d =>
      have hAll : ∀ xs, validateAllE d xs = .ok (validateAll d xs) :=
        fun xs => validateAllE_ok d xs
      cases v <;> simp [validateE, validate, isinst, pyIterE, pyElems, hAll]
  | tupleFixed ds =>
      have hFix : ∀ xs, validateFixedE ds xs = .ok (validateFixed ds xs) :=
        fun xs => validateFixedE_ok ds xs
      cases v
      case tuple xs =>
        cases hlen : xs.length == ds.length <;>
          simp [validateE, validate, isinst, pyLenE, pyIterE, pyElems, hlen, hFix]
      all_goals simp [validateE, validate, isinst]
  | coll kind elem =>
      have hAll : ∀ xs, validateAllE elem xs = .ok (validateAll elem xs) :=
        fun xs => validateAllE_ok elem xs
      cases kind <;> cases v <;>
        simp [validateE, validate, isinst, CollKind.toClass, pyIterE, pyElems, hAll]
  | typeOf bound => cases bound <;> simp [validateE, validate]
  | record n => simp [validateE, validate]
  | scalar p => cases p <;> simp [validateE, validate]
termination_by (sizeOf d, sizeOf v)

/-- Exception-aware any() over union members never raises. -/
theorem validateAnyE_ok (ms : List Desc) (v : Value) :
    validateAnyE ms v = .ok (validateAny ms v) := by
  cases ms with
  | nil => simp [validateAnyE, validateAny]
  | cons m ms =>
      have h1 := validateE_ok m v
      have h2 := validateAnyE_ok ms v
      cases hb : validate m v <;> simp [validateAnyE, validateAny, h1, h2, hb]
termination_by (sizeOf ms, sizeOf v)

/-- Exception-aware all() over elements never raises. -/
theorem validateAllE_ok (d : Desc) (xs : List Value) :
    validateAllE d xs = .ok (validateAll d xs) := by
  cases xs with
  | nil => simp [validateAllE, validateAll]
  | cons x xs =>
      have h1 := validateE_ok d x
      have h2 := validateAllE_ok d xs
      cases hb : validate d x <;> simp [validateAllE, validateAll, h1, h2, hb]
termination_by (sizeOf d, sizeOf xs)

/-- Exception-aware zipped all() over a fixed tuple never raises. -/
theorem validateFixedE_ok (ds : List Desc) (xs : List Value) :
    validateFixedE ds xs = .ok (validateFixed ds xs) := by
  cases ds with
  | nil => cases xs <;> simp [validateFixedE, validateFixed]
  | cons d ds =>
      cases xs with
      | nil => simp [validateFixedE, validateFixed]
      | cons x xs =>
          have h1 := validateE_ok d x
          have h2 := validateFixedE_ok ds xs
          cases hb : validate d x <;> simp [validateFixedE, validateFixed, h1, h2, hb]
termination_by (sizeOf ds, sizeOf xs)

/-- Exception-aware all() over mapping entries never raises. -/
theorem validateMapItemsE_ok (kd vd : Desc) (es : List (Value × Value)) :
    validateMapItemsE kd vd es = .ok (validateMapItems kd vd es) := by
  cases es with
  | nil => simp [validateMapItemsE, validateMapItems]
  | cons e es =>
      have h1 := validateE_ok kd e.1
      have h2 := validateE_ok vd e.2
      have h3 := validateMapItemsE_ok kd vd es
      cases hb1 : validate kd e.1 <;> cases hb2 : validate vd e.2 <;>
        simp [validateMapItemsE, validateMapItems, h1, h2, h3, hb1, hb2]
termination_by (sizeOf kd + sizeOf vd, sizeOf es)
decreasing_by
  all_goals first
    | decreasing_tactic
    | (simp_wf
       first
         | (have hp : 0 < sizeOf vd := by cases vd <;> simp_arith
            apply Prod.Lex.left
            omega)
         | (have hp : 0 < sizeOf kd := by cases kd <;> simp_arith
            apply Prod.Lex.left
            omega))

/-- Exception-aware all() over TypedDict entries never raises. -/
theorem validateItemsE_ok (dflt : Bool) (fields : List (String × Desc))
    (es : List (Value × Value)) :
    validateItemsE dflt fields es = .ok (validateItems dflt fields es) := by
  cases es with
  | nil => simp [validateItemsE, validateItems]
  | cons e es =>
      obtain ⟨k, x⟩ := e
      have h1 := validateItemE_ok dflt fields k x
      have h2 := validateItemsE_ok dflt fields es
      cases hb : validateItem dflt fields k x <;>
        simp [validateItemsE, validateItems, h1, h2, hb]
termination_by (sizeOf fields, sizeOf es)

/-- Exception-aware handling of one TypedDict entry never raises. -/
theorem validateItemE_ok (dflt : Bool) (fields : List (String × Desc))
    (k x : Value) :
    validateItemE dflt fields k x = .ok (validateItem dflt fields k x) := by
  cases fields with
  | nil => simp [validateItemE, validateItem]
  | cons f fields =>
      obtain ⟨s, fd⟩ := f
      have h1 := validateE_ok fd x
      have h2 := validateItemE_ok dflt fields k x
      cases hk : keyMatches k s <;> simp [validateItemE, validateItem, h1, h2, hk]
termination_by (sizeOf fields, sizeOf k)

end

/-! The VALIDATORS cache. Python keys the cache dict by the descriptor
(type_ not in VALIDATORS), comparing descriptors for equality; descBeq is
that comparison on the embedded descriptors. -/

mutual

/-- Structural equality of descriptors, the key comparison of the
VALIDATORS dict. -/
def descBeq : Desc → Desc → Bool
  | .any, .any => true
  | .union ms, .union ns => descBeqList ms ns
  | .typedDict t f r, .typedDict t2 f2 r2 => t == t2 && descBeqFields f f2 && r == r2
  | .newtype u, .newtype u2 => descBeq u u2
  | .literal vs, .literal vs2 => vs == vs2
  | .initVar i, .initVar i2 => descBeq i i2
  | .collUntyped o, .collUntyped o2 => o == o2
  | .mapping k v, .mapping k2 v2 => descBeq k k2 && descBeq v v2
  | .tupleEmpty, .tupleEmpty => true
  | .tupleVariadic d, .tupleVariadic d2 => descBeq d d2
  | .tupleFixed ds, .tupleFixed ds2 => descBeqList ds ds2
  | .coll k e, .coll k2 e2 => k == k2 && descBeq e e2
  | .typeOf b, .typeOf b2 => b == b2
  | .record n, .record n2 => n == n2
  | .scalar p, .scalar p2 => p == p2
  | _, _ => false
termination_by a _ => sizeOf a

/-- Pointwise equality of descriptor lists. -/
def descBeqList : List Desc → List Desc → Bool
  | [], [] => true
  | d :: ds, d2 :: ds2 => descBeq d d2 && descBeqList ds ds2
  | _, _ => false
termination_by ds _ => sizeOf ds

/-- Pointwise equality of field tables. -/
def descBeqFields : List (String × Desc) → List (String × Desc) → Bool
  | [], [] => true
  | (s, d) :: fs, (s2, d2) :: fs2 => s == s2 && descBeq d d2 && descBeqFields fs fs2
  | _, _ => false
termination_by fs _ => sizeOf fs

end

/-- Soundness of the cache-key comparison, by strong induction on the
size of the left operand, jointly for descriptors, descriptor lists and
field tables. -/
theorem descBeq_sound_aux : ∀ n : Nat,
    (∀ a b, sizeOf a ≤ n → descBeq a b = true → a = b) ∧
    (∀ as bs, sizeOf as ≤ n → descBeqList as bs = true → as = bs) ∧
    (∀ fs gs, sizeOf fs ≤ n → descBeqFields fs gs = true → fs = gs) := by
  intro n
  induction n using Nat.strong_induction_on with
  | _ n ih =>
    refine ⟨?_, ?_, ?_⟩
    · intro a b hn h
      cases a <;> cases b <;> (try simp [descBeq] at h)
      case any.any => rfl
      case union.union ms ns =>
          simp_arith at hn
          rw [(ih (sizeOf ms) (by omega)).2.1 ms ns (le_refl _) h]
      case typedDict.typedDict t f r t2 f2 r2 =>
          simp_arith at hn
          obtain ⟨⟨ht, hf⟩, hr⟩ := h
          rw [ht, hr, (ih (sizeOf f) (by omega)).2.2 f f2 (le_refl _) hf]
      case newtype.newtype u u2 =>
          simp_arith at hn
          rw [(ih (sizeOf u) (by omega)).1 u u2 (le_refl _) h]
      case literal.literal vs vs2 => rw [h]
      case initVar.initVar i i2 =>
          simp_arith at hn
          rw [(ih (sizeOf i) (by omega)).1 i i2 (le_refl _) h]
      case collUntyped.collUntyped o o2 => rw [h]
      case mapping.mapping k v k2 v2 =>
          simp_arith at hn
          rw [(ih (sizeOf k) (by omega)).1 k k2 (le_refl _) h.1,
              (ih (sizeOf v) (by omega)).1 v v2 (le_refl _) h.2]
      case tupleEmpty.tupleEmpty => rfl
      case tupleVariadic.tupleVariadic d d2 =>
          simp_arith at hn
          rw [(ih (sizeOf d) (by omega)).1 d d2 (le_refl _) h]
      case tupleFixed.tupleFixed ds ds2 =>
          simp_arith at hn
          rw [(ih (sizeOf ds) (by omega)).2.1 ds ds2 (le_refl _) h]
      case coll.coll k e k2 e2 =>
          simp_arith at hn
          rw [h.1, (ih (sizeOf e) (by omega)).1 e e2 (le_refl _) h.2]
      case typeOf.typeOf b b2 => rw [h]
      case record.record n n2 => rw [h]
      case scalar.scalar p p2 => rw [h]
    · intro as bs hn h
      cases as <;> cases bs <;> (try simp [descBeqList] at h)
      case nil.nil => rfl
      case cons.cons d ds d2 ds2 =>
          simp_arith at hn
          rw [(ih (sizeOf d) (by omega)).1 d d2 (le_refl _) h.1,
              (ih (sizeOf ds) (by omega)).2.1 ds ds2 (le_refl _) h.2]
    · intro fs gs hn h
      cases fs with
      | nil =>
          cases gs with
          | nil => rfl
          | cons g gs =>
              obtain ⟨s2, d2⟩ := g
              simp [descBeqFields] at h
      | cons f fs =>
          obtain ⟨s, d⟩ := f
          cases gs with
          | nil => simp [descBeqFields] at h
          | cons g gs =>
              obtain ⟨s2, d2⟩ := g
              simp only [descBeqFields, Bool.and_eq_true, beq_iff_eq] at h
              obtain ⟨⟨hs, hd⟩, hf⟩ := h
              simp_arith at hn
              rw [hs, (ih (sizeOf d) (by omega)).1 d d2 (le_refl _) hd,
                  (ih (sizeOf fs) (by omega)).2.2 fs gs (le_refl _) hf]

/-- Descriptors that compare equal as cache keys are equal. -/
theorem descBeq_sound (a b : Desc) (h : descBeq a b = true) : a = b :=
  (descBeq_sound_aux (sizeOf a)).1 a b (le_refl _) h

/-- A compiled predicate, the value of an entry of VALIDATORS. -/
abbrev Pred := Value → Bool

/-- The process-wide VALIDATORS dict, as an association list from
descriptors to compiled predicates; insertion prepends. -/
abbrev Cache := List (Desc × Pred)

/-- The empty VALIDATORS dict at process start. -/
def cacheInit : Cache := []

/-- The lookup type_ in VALIDATORS / VALIDATORS[type_]. -/
def cacheLookup (c : Cache) (d : Desc) : Option Pred :=
  match c.find? fun p => descBeq p.1 d with
  | some p => some p.2
  | Option.none => Option.none

/-! The closures get_validator returns capture the eagerly compiled
sub-predicates; these combinators are the bodies of those closures. -/

/-- any(v(value) for v in validators): body of the union closure. -/
def anyPred : List Pred → Value → Bool
  | [], _ => false
  | f :: fs, v => f v || anyPred fs v

/-- all(v(item) for item in value): body of the homogeneous-collection
and variadic-tuple closures. -/
def allPred (f : Pred) : List Value → Bool
  | [] => true
  | x :: xs => f x && allPred f xs

/-- all(v(item) for item, v in zip(value, validators)): body of the
fixed-tuple closure. -/
def zipPred : List Pred → List Value → Bool
  | f :: fs, x :: xs => f x && zipPred fs xs
  | _, _ => true

/-- all(kv(k) and vv(v) for k, v in value.items()): body of the Mapping
closure. -/
def mapPred (kf vf : Pred) : List (Value × Value) → Bool
  | [] => true
  | e :: es => kf e.1 && vf e.2 && mapPred kf vf es

/-- One entry of the TypedDict closure: find the compiled field
predicate for the key, defaulting for an undeclared key. -/
def tdItem (dflt : Bool) : List (String × Pred) → Value → Value → Bool
  | [], _, _ => dflt
  | (s, f) :: fs, k, x => if keyMatches k s then f x else tdItem dflt fs k x

/-- The per-entry loop of the TypedDict closure. -/
def tdItems (dflt : Bool) (fvs : List (String × Pred)) : List (Value × Value) → Bool
  | [] => true
  | (k, x) :: es => tdItem dflt fvs k x && tdItems dflt fvs es

mutual

/-- The caching entry point validator(type_): return the cached
predicate if the descriptor is a key of VALIDATORS, otherwise run
get_validator and store the result under the descriptor. -/
def validator (c : Cache) (d : Desc) : Pred × Cache :=
  match cacheLookup c d with
  | some f => (f, c)
  | Option.none =>
      let r := get_validator c d
      (r.1, (d, r.1) :: r.2)
termination_by (sizeOf d, 1)

/-- The compiler get_validator(type_): classify the descriptor, eagerly
compile every nested descriptor through the caching validator (threading
the cache), and return a closure over the compiled sub-predicates. -/
def get_validator (c : Cache) (d : Desc) : Pred × Cache :=
  match d with
  | .any => (fun _ => true, c)
  | .union ms =>
      let r := compileListC c ms
      (fun v => anyPred r.1 v, r.2)
  | .typedDict total fields required =>
      let r := compileFieldsC c fields
      (fun v =>
        match v with
        | .dict es =>
            (required.all fun k => es.any fun e => keyMatches e.1 k) &&
            tdItems (!total) r.1 es
        | _ => false,
       r.2)
  | .newtype u => validator c u
  | .literal vals => (fun v => vals.any fun u => litEq v u, c)
  | .initVar inner => validator c inner
  | .collUntyped origin => (fun v => isinst v origin.toClass, c)
  | .mapping kd vd =>
      let rk := validator c kd
      let rv := validator rk.2 vd
      (fun v =>
        match v with
        | .dict es => mapPred rk.1 rv.1 es
        | _ => false,
       rv.2)
  | .tupleEmpty => (fun v => isinst v .tupleC && pyFalsy v, c)
  | .tupleVariadic d2 =>
      let r := validator c d2
      (fun v => isinst v .tupleC && allPred r.1 (pyElems v), r.2)
  | .tupleFixed ds =>
      let r := compileListC c ds
      (fun v => isinst v .tupleC && ((pyElems v).length == r.1.length) &&
        zipPred r.1 (pyElems v), r.2)
  | .coll kind elem =>
      let r := validator c elem
      (fun v => isinst v kind.toClass && allPred r.1 (pyElems v), r.2)
  | .typeOf Option.none => (fun v => isinst v .typeC, c)
  | .typeOf (some b) => (fun v => isinst v .typeC && issubBound v b, c)
  | .record n => (fun v => isinst v (.cls n), c)
  | .scalar .complex => (fun v => isinst v .intC || isinst v .floatC || isinst v .complexC, c)
  | .scalar .float => (fun v => isinst v .intC || isinst v .floatC, c)
  | .scalar p => (fun v => isinst v p.toClass, c)
termination_by (sizeOf d, 0)

/-- [validator(t) for t in generic], threading the cache left to right. -/
def compileListC (c : Cache) : List Desc → List Pred × Cache
  | [] => ([], c)
  | d :: ds =>
      let r := validator c d
      let rs := compileListC r.2 ds
      (r.1 :: rs.1, rs.2)
termination_by ds => (sizeOf ds, 0)

/-- The field table {k: validator(hint) for k, hint in hints.items()} of
typeddict_validator, threading the cache left to right. -/
def compileFieldsC (c : Cache) : List (String × Desc) → List (String × Pred) × Cache
  | [] => ([], c)
  | (s, d) :: fs =>
      let r := validator c d
      let rs := compileFieldsC r.2 fs
      ((s, r.1) :: rs.1, rs.2)
termination_by fs => (sizeOf fs, 0)

end

/-- Coherence of a cache state: every stored predicate is extensionally
the denotation of the descriptor it is keyed by. -/
def Coherent (c : Cache) : Prop := ∀ p ∈ c, ∀ v, p.2 v = validate p.1 v

/-- Pointwise correspondence of compiled member predicates to the member
descriptors of a union or fixed tuple. -/
def PredsMatch : List Pred → List Desc → Prop
  | [], [] => True
  | f :: fs, d :: ds => (∀ v, f v = validate d v) ∧ PredsMatch fs ds
  | _, _ => False

/-- Pointwise correspondence of a compiled field table to the declared
field descriptors of a TypedDict. -/
def FieldsMatch : List (String × Pred) → List (String × Desc) → Prop
  | [], [] => True
  | fv :: fvs, fd :: fds =>
      fv.1 = fd.1 ∧ (∀ x, fv.2 x = validate fd.2 x) ∧ FieldsMatch fvs fds
  | _, _ => False

/-- The union closure computes the denotational any() over members. -/
theorem anyPred_eq {fs : List Pred} {ds : List Desc} (h : PredsMatch fs ds)
    (v : Value) : anyPred fs v = validateAny ds v := by
  induction fs generalizing ds with
  | nil =>
      cases ds with
      | nil => simp [anyPred, validateAny]
      | cons d ds => simp [PredsMatch] at h
  | cons f fs ih =>
      cases ds with
      | nil => simp [PredsMatch] at h
      | cons d ds =>
          simp only [PredsMatch] at h
          obtain ⟨h1, h2⟩ := h
          simp [anyPred, validateAny, h1, ih h2]

/-- The element closure computes the denotational all() over elements. -/
theorem allPred_eq {f : Pred} {d : Desc} (hf : ∀ x, f x = validate d x) :
    ∀ xs, allPred f xs = validateAll d xs := by
  intro xs
  induction xs with
  | nil => simp [allPred, validateAll]
  | cons x xs ih => simp [allPred, validateAll, hf, ih]

/-- Compiled member lists have the arity of their descriptor lists. -/
theorem predsMatch_length {fs : List Pred} {ds : List Desc}
    (h : PredsMatch fs ds) : fs.length = ds.length := by
  induction fs generalizing ds with
  | nil =>
      cases ds with
      | nil => rfl
      | cons d ds => simp [PredsMatch] at h
  | cons f fs ih =>
      cases ds with
      | nil => simp [PredsMatch] at h
      | cons d ds =>
          simp only [PredsMatch] at h
          simp [ih h.2]

/-- The fixed-tuple closure computes the denotational zipped all(). -/
theorem zipPred_eq {fs : List Pred} {ds : List Desc} (h : PredsMatch fs ds) :
    ∀ xs, zipPred fs xs = validateFixed ds xs := by
  induction fs generalizing ds with
  | nil =>
      cases ds with
      | nil => intro xs; cases xs <;> simp [zipPred, validateFixed]
      | cons d ds => simp [PredsMatch] at h
  | cons f fs ih =>
      cases ds with
      | nil => simp [PredsMatch] at h
      | cons d ds =>
          simp only [PredsMatch] at h
          obtain ⟨h1, h2⟩ := h
          intro xs
          cases xs with
          | nil => simp [zipPred, validateFixed]
          | cons x xs => simp [zipPred, validateFixed, h1, ih h2]

/-- The Mapping closure computes the denotational entry loop. -/
theorem mapPred_eq {kf vf : Pred} {kd vd : Desc}
    (hk : ∀ x, kf x = validate kd x) (hv : ∀ x, vf x = validate vd x) :
    ∀ es, mapPred kf vf es = validateMapItems kd vd es := by
  intro es
  induction es with
  | nil => simp [mapPred, validateMapItems]
  | cons e es ih => simp [mapPred, validateMapItems, hk, hv, ih]

/-- The TypedDict closure prescribes the denotational per-key search. -/
theorem tdItem_eq {fvs : List (String × Pred)} {fds : List (String × Desc)}
    {dflt : Bool} (h : FieldsMatch fvs fds) (k x : Value) :
    tdItem dflt fvs k x = validateItem dflt fds k x := by
  induction fvs generalizing fds with
  | nil =>
      cases fds with
      | nil => simp [tdItem, validateItem]
      | cons fd fds => simp [FieldsMatch] at h
  | cons fv fvs ih =>
      cases fds with
      | nil => simp [FieldsMatch] at h
      | cons fd fds =>
          simp only [FieldsMatch] at h
          obtain ⟨h1, h2, h3⟩ := h
          obtain ⟨s, f⟩ := fv
          obtain ⟨s2, d2⟩ := fd
          simp only at h1 h2
          subst h1
          cases hk : keyMatches k s <;>
            simp [tdItem, validateItem, hk, h2, ih h3]

/-- The TypedDict closure computes the denotational entry loop. -/
theorem tdItems_eq {fvs : List (String × Pred)} {fds : List (String × Desc)}
    {dflt : Bool} (h : FieldsMatch fvs fds) :
    ∀ es, tdItems dflt fvs es = validateItems dflt fds es := by
  intro es
  induction es with
  | nil => simp [tdItems, validateItems]
  | cons e es ih =>
      obtain ⟨k, x⟩ := e
      simp [tdItems, validateItems, tdItem_eq h, ih]

/-- A hit in a coherent cache returns the denotation of the key. -/
theorem cacheLookup_coherent {c : Cache} (hc : Coherent c) {d : Desc}
    {f : Pred} (h : cacheLookup c d = some f) (v : Value) :
    f v = validate d v := by
  unfold cacheLookup at h
  cases hf : c.find? fun p => descBeq p.1 d with
  | none => rw [hf] at h; cases h
  | some p =>
      rw [hf] at h
      cases h
      have hm := List.mem_of_find?_eq_some hf
      have hb := List.find?_some hf
      rw [← descBeq_sound p.1 d hb]
      exact hc p hm v

/-- Soundness of the caching compiler, by strong induction on descriptor
size: starting from any coherent cache, the compiled predicate computes
the denotation and the resulting cache is again coherent; likewise for
the inner compiler and the eager list and field-table compilations. -/
theorem validator_ok_aux : ∀ n : Nat,
    (∀ d c, sizeOf d ≤ n → Coherent c →
        (∀ v, (validator c d).1 v = validate d v) ∧ Coherent (validator c d).2) ∧
    (∀ d c, sizeOf d ≤ n → Coherent c →
        (∀ v, (get_validator c d).1 v = validate d v) ∧
          Coherent (get_validator c d).2) ∧
    (∀ ds c, sizeOf ds ≤ n → Coherent c →
        PredsMatch (compileListC c ds).1 ds ∧ Coherent (compileListC c ds).2) ∧
    (∀ fs c, sizeOf fs ≤ n → Coherent c →
        FieldsMatch (compileFieldsC c fs).1 fs ∧
          Coherent (compileFieldsC c fs).2) := by
  intro n
  induction n using Nat.strong_induction_on with
  | _ n ih =>
    have hQ : ∀ d c, sizeOf d ≤ n → Coherent c →
        (∀ v, (get_validator c d).1 v = validate d v) ∧
          Coherent (get_validator c d).2 := by
      intro d c hn hc
      cases d with
      | any =>
          exact ⟨fun v => by simp [get_validator, validate],
                 by simpa [get_validator] using hc⟩
      | union ms =>
          simp_arith at hn
          obtain ⟨hm, hc2⟩ := (ih (sizeOf ms) (by omega)).2.2.1 ms c (le_refl _) hc
          refine ⟨fun v => ?_, by simp only [get_validator]; exact hc2⟩
          simp only [get_validator]
          rw [anyPred_eq hm v]
          simp [validate]
      | typedDict total fields required =>
          simp_arith at hn
          obtain ⟨hm, hc2⟩ :=
            (ih (sizeOf fields) (by omega)).2.2.2 fields c (le_refl _) hc
          refine ⟨fun v => ?_, by simp only [get_validator]; exact hc2⟩
          cases v <;> simp only [get_validator, validate]
          all_goals try rfl
          rw [tdItems_eq hm]
      | newtype u =>
          simp_arith at hn
          obtain ⟨h1, h2⟩ := (ih (sizeOf u) (by omega)).1 u c (le_refl _) hc
          exact ⟨fun v => by simp only [get_validator, validate]; exact h1 v,
                 by simp only [get_validator]; exact h2⟩
      | literal vals =>
          exact ⟨fun v => by simp [get_validator, validate],
                 by simpa [get_validator] using hc⟩
      | initVar inner =>
          simp_arith at hn
          obtain ⟨h1, h2⟩ := (ih (sizeOf inner) (by omega)).1 inner c (le_refl _) hc
          exact ⟨fun v => by simp only [get_validator, validate]; exact h1 v,
                 by simp only [get_validator]; exact h2⟩
      | collUntyped origin =>
          exact ⟨fun v => by simp [get_validator, validate],
                 by simpa [get_validator] using hc⟩
      | mapping kd vd =>
          simp_arith at hn
          obtain ⟨hk1, hk2⟩ := (ih (sizeOf kd) (by omega)).1 kd c (le_refl _) hc
          obtain ⟨hv1, hv2⟩ :=
            (ih (sizeOf vd) (by omega)).1 vd (validator c kd).2 (le_refl _) hk2
          refine ⟨fun v => ?_, by simp only [get_validator]; exact hv2⟩
          cases v <;> simp only [get_validator, validate]
          all_goals try rfl
          exact mapPred_eq hk1 hv1 _
      | tupleEmpty =>
          exact ⟨fun v => by simp [get_validator, validate],
                 by simpa [get_validator] using hc⟩
      | tupleVariadic d2 =>
          simp_arith at hn
          obtain ⟨h1, h2⟩ := (ih (sizeOf d2) (by omega)).1 d2 c (le_refl _) hc
          refine ⟨fun v => ?_, by simp only [get_validator]; exact h2⟩
          simp only [get_validator, validate]
          rw [allPred_eq h1]
      | tupleFixed ds =>
          simp_arith at hn
          obtain ⟨hm, hc2⟩ := (ih (sizeOf ds) (by omega)).2.2.1 ds c (le_refl _) hc
          refine ⟨fun v => ?_, by simp only [get_validator]; exact hc2⟩
          simp only [get_validator, validate]
          rw [predsMatch_length hm, zipPred_eq hm]
      | coll kind elem =>
          simp_arith at hn
          obtain ⟨h1, h2⟩ := (ih (sizeOf elem) (by omega)).1 elem c (le_refl _) hc
          refine ⟨fun v => ?_, by simp only [get_validator]; exact h2⟩
          simp only [get_validator, validate]
          rw [allPred_eq h1]
      | typeOf bound =>
          cases bound <;>
            exact ⟨fun v => by simp [get_validator, validate],
                   by simpa [get_validator] using hc⟩
      | record n2 =>
          exact ⟨fun v => by simp [get_validator, validate],
                 by simpa [get_validator] using hc⟩
      | scalar p =>
          cases p <;>
            exact ⟨fun v => by simp [get_validator, validate],
                   by simpa [get_validator] using hc⟩
    have hP : ∀ d c, sizeOf d ≤ n → Coherent c →
        (∀ v, (validator c d).1 v = validate d v) ∧ Coherent (validator c d).2 := by
      intro d c hn hc
      cases hl : cacheLookup c d with
      | some f =>
          refine ⟨fun v => ?_, ?_⟩
          · simp only [validator, hl]
            exact cacheLookup_coherent hc hl v
          · simp only [validator, hl]
            exact hc
      | none =>
          obtain ⟨h1, h2⟩ := hQ d c hn hc
          refine ⟨fun v => ?_, ?_⟩
          · simp only [validator, hl]
            exact h1 v
          · simp only [validator, hl]
            intro p hp v
            rcases List.mem_cons.mp hp with hpe | hpm
            · subst hpe
              simpa using h1 v
            · exact h2 p hpm v
    have hR : ∀ ds c, sizeOf ds ≤ n → Coherent c →
        PredsMatch (compileListC c ds).1 ds ∧ Coherent (compileListC c ds).2 := by
      intro ds c hn hc
      cases ds with
      | nil =>
          exact ⟨by simp [compileListC, PredsMatch],
                 by simpa [compileListC] using hc⟩
      | cons d ds =>
          simp_arith at hn
          obtain ⟨h1, h2⟩ := hP d c (by omega) hc
          obtain ⟨h3, h4⟩ :=
            (ih (sizeOf ds) (by omega)).2.2.1 ds (validator c d).2 (le_refl _) h2
          refine ⟨?_, by simp only [compileListC]; exact h4⟩
          simp only [compileListC, PredsMatch]
          exact ⟨h1, h3⟩
    have hS : ∀ fs c, sizeOf fs ≤ n → Coherent c →
        FieldsMatch (compileFieldsC c fs).1 fs ∧
          Coherent (compileFieldsC c fs).2 := by
      intro fs c hn hc
      cases fs with
      | nil =>
          exact ⟨by simp [compileFieldsC, FieldsMatch],
                 by simpa [compileFieldsC] using hc⟩
      | cons f fs =>
          obtain ⟨s, d⟩ := f
          simp_arith at hn
          obtain ⟨h1, h2⟩ := hP d c (by omega) hc
          obtain ⟨h3, h4⟩ :=
            (ih (sizeOf fs) (by omega)).2.2.2 fs (validator c d).2 (le_refl _) h2
          refine ⟨?_, by simp only [compileFieldsC]; exact h4⟩
          simp only [compileFieldsC, FieldsMatch]
          exact ⟨by trivial, h1, h3⟩
    exact ⟨hP, hQ, hR, hS⟩

/-- Compiling from any coherent cache yields the denotation and keeps
the cache coherent. -/
theorem validator_coherent (c : Cache) (hc : Coherent c) (d : Desc) :
    (∀ v, (validator c d).1 v = validate d v) ∧ Coherent (validator c d).2 :=
  (validator_ok_aux (sizeOf d)).1 d c (le_refl _) hc

/-- The initial empty VALIDATORS dict is coherent. -/
theorem coherent_cacheInit : Coherent cacheInit := by
  intro p hp
  simp [cacheInit] at hp

/-- A sequence of compilations, modelling an arbitrary interleaving of
prior validate calls populating the cache. -/
def compileMany (c : Cache) : List Desc → Cache
  | [] => c
  | d :: ds => compileMany (validator c d).2 ds

/-- Any cache reachable from a coherent cache by compiling descriptors
is coherent. -/
theorem coherent_compileMany (ds : List Desc) (c : Cache) (hc : Coherent c) :
    Coherent (compileMany c ds) := by
  induction ds generalizing c with
  | nil => simpa [compileMany] using hc
  | cons d ds ih =>
      simp only [compileMany]
      exact ih (validator c d).2 (validator_coherent c hc d).2

/-- The first declared field whose name equals the dict key, the lookup
validators[k] performed by the TypedDict lambdas. -/
def findField : List (String × Desc) → Value → Option Desc
  | [], _ => Option.none
  | (s, fd) :: fields, k => if keyMatches k s then some fd else findField fields k

/-- One TypedDict entry check, expressed through the field lookup. -/
theorem validateItem_eq_find (dflt : Bool) (fields : List (String × Desc))
    (k x : Value) :
    validateItem dflt fields k x =
      match findField fields k with
      | some fd => validate fd x
      | Option.none => dflt := by
  induction fields with
  | nil => simp [validateItem, findField]
  | cons f fields ih =>
      obtain ⟨s, fd⟩ := f
      cases hk : keyMatches k s <;> simp [validateItem, findField, hk, ih]

/-- A closed-record entry passes iff its key is declared and its value
satisfies the declared field. -/
theorem validateItem_false_iff (fields : List (String × Desc)) (k x : Value) :
    validateItem false fields k x = true ↔
      ∃ fd, findField fields k = some fd ∧ validate fd x = true := by
  rw [validateItem_eq_find]
  cases findField fields k <;> simp

/-- An open-record entry passes iff its value satisfies the declared
field whenever its key is declared. -/
theorem validateItem_true_iff (fields : List (String × Desc)) (k x : Value) :
    validateItem true fields k x = true ↔
      ∀ fd, findField fields k = some fd → validate fd x = true := by
  rw [validateItem_eq_find]
  cases findField fields k <;> simp

/-- The TypedDict entry loop passes iff every entry passes. -/
theorem validateItems_iff (dflt : Bool) (fields : List (String × Desc))
    (es : List (Value × Value)) :
    validateItems dflt fields es = true ↔
      ∀ e ∈ es, validateItem dflt fields e.1 e.2 = true := by
  induction es with
  | nil => simp [validateItems]
  | cons e es ih =>
      obtain ⟨k, x⟩ := e
      simp [validateItems, ih]

/-- The element loop passes iff every element passes. -/
theorem validateAll_iff (d : Desc) (xs : List Value) :
    validateAll d xs = true ↔ ∀ x ∈ xs, validate d x = true := by
  induction xs with
  | nil => simp [validateAll]
  | cons x xs ih => simp [validateAll, ih]

/-- The union loop passes iff some member passes. -/
theorem validateAny_iff (ms : List Desc) (v : Value) :
    validateAny ms v = true ↔ ∃ m ∈ ms, validate m v = true := by
  induction ms with
  | nil => simp [validateAny]
  | cons m ms ih => simp [validateAny, ih]

/-- On equal-length lists the fixed-tuple zip loop is the pointwise
correspondence of members to elements. -/
theorem validateFixed_forall2 (ds : List Desc) (xs : List Value)
    (hlen : xs.length = ds.length) :
    validateFixed ds xs = true ↔
      List.Forall₂ (fun dd x => validate dd x = true) ds xs := by
  induction ds generalizing xs with
  | nil =>
      cases xs with
      | nil => simp [validateFixed]
      | cons x xs => simp at hlen
  | cons dd ds ih =>
      cases xs with
      | nil => simp at hlen
      | cons x xs =>
          have hlen2 : xs.length = ds.length := by simpa using hlen
          simp [validateFixed, List.forall₂_cons, ih xs hlen2]

/-! The claim theorems. -/

/-- C1: for a closed TypedDict (total = true), validate accepts v iff v
is a mapping, every explicitly required field name is a key of v, and
every key of v is a declared field whose value satisfies that field's
predicate; an undeclared key present in v forces a false verdict, and a
closed record with no explicitly required fields accepts the empty
mapping. -/
theorem typeddict_closed_correct (fields : List (String × Desc))
    (required : List String) (v : Value) :
    (validate (.typedDict true fields required) v = true ↔
      ∃ es, v = .dict es ∧
        (∀ k ∈ required, (es.any fun e => keyMatches e.1 k) = true) ∧
        (∀ e ∈ es, ∃ fd, findField fields e.1 = some fd ∧
          validate fd e.2 = true)) ∧
    (∀ es, ∀ e ∈ es, findField fields e.1 = Option.none →
        validate (.typedDict true fields required) (.dict es) = false) ∧
    validate (.typedDict true fields []) (.dict []) = true := by
  refine ⟨?_, ?_, ?_⟩
  · cases v with
    | dict es =>
        simp only [validate, Bool.not_true, Bool.and_eq_true, List.all_eq_true]
        constructor
        · rintro ⟨hreq, hitems⟩
          refine ⟨es, rfl, hreq, ?_⟩
          intro e he
          have hi := (validateItems_iff false fields es).mp hitems e he
          exact (validateItem_false_iff fields e.1 e.2).mp hi
        · rintro ⟨es2, heq, hreq, hitems⟩
          injection heq with heq2
          subst heq2
          refine ⟨hreq, ?_⟩
          rw [validateItems_iff]
          intro e he
          exact (validateItem_false_iff fields e.1 e.2).mpr (hitems e he)
    | none => simp [validate]
    | bool b => simp [validate]
    | int n => simp [validate]
    | float q => simp [validate]
    | complex r i => simp [validate]
    | str s => simp [validate]
    | bytes bs => simp [validate]
    | list xs => simp [validate]
    | tuple xs => simp [validate]
    | set xs => simp [validate]
    | frozenset xs => simp [validate]
    | typeObj nm ss => simp [validate]
    | inst nm ss => simp [validate]
  · intro es e he hf
    have hB : validateItems false fields es = false := by
      cases hBB : validateItems false fields es with
      | false => rfl
      | true =>
          have hi := (validateItems_iff false fields es).mp hBB e he
          rw [validateItem_eq_find, hf] at hi
          exact absurd hi (by simp)
    simp [validate, hB]
  · simp [validate, validateItems]

/-- C2: for an open TypedDict (total = false), validate accepts v iff v
is a mapping, every explicitly required field name is a key of v, and
every key of v that is a declared field has a value satisfying that
field's predicate; undeclared keys never falsify the verdict. With field
name required str, the empty dict is rejected and a dict carrying name
plus an unknown key is accepted. -/
theorem typeddict_open_correct (fields : List (String × Desc))
    (required : List String) (v : Value) :
    (validate (.typedDict false fields required) v = true ↔
      ∃ es, v = .dict es ∧
        (∀ k ∈ required, (es.any fun e => keyMatches e.1 k) = true) ∧
        (∀ e ∈ es, ∀ fd, findField fields e.1 = some fd →
          validate fd e.2 = true)) ∧
    validate (.typedDict false [("name", .scalar .str)] ["name"])
      (.dict []) = false ∧
    validate (.typedDict false [("name", .scalar .str)] ["name"])
      (.dict [(.str "name", .str "x"), (.str "extra", .int 1)]) = true := by
  refine ⟨?_, ?_, ?_⟩
  · cases v with
    | dict es =>
        simp only [validate, Bool.not_false, Bool.and_eq_true, List.all_eq_true]
        constructor
        · rintro ⟨hreq, hitems⟩
          refine ⟨es, rfl, hreq, ?_⟩
          intro e he
          have hi := (validateItems_iff true fields es).mp hitems e he
          exact (validateItem_true_iff fields e.1 e.2).mp hi
        · rintro ⟨es2, heq, hreq, hitems⟩
          injection heq with heq2
          subst heq2
          refine ⟨hreq, ?_⟩
          rw [validateItems_iff]
          intro e he
          exact (validateItem_true_iff fields e.1 e.2).mpr (hitems e he)
    | none => simp [validate]
    | bool b => simp [validate]
    | int n => simp [validate]
    | float q => simp [validate]
    | complex r i => simp [validate]
    | str s => simp [validate]
    | bytes bs => simp [validate]
    | list xs => simp [validate]
    | tuple xs => simp [validate]
    | set xs => simp [validate]
    | frozenset xs => simp [validate]
    | typeObj nm ss => simp [validate]
    | inst nm ss => simp [validate]
  · simp [validate, validateItems, validateItem, keyMatches]
  · simp [validate, validateItems, validateItem, keyMatches, isinst, Prim.toClass]

/-- C3: a union of two descriptors validates as the boolean disjunction
of its members, and in general a union accepts a value iff some member
accepts it. -/
theorem union_disjunction (a b : Desc) (ms : List Desc) (v : Value) :
    validate (.union [a, b]) v = (validate a v || validate b v) ∧
    (validate (.union ms) v = true ↔ ∃ m ∈ ms, validate m v = true) := by
  constructor
  · simp [validate, validateAny]
  · simp only [validate]
    exact validateAny_iff ms v

/-- C4: the three tuple arity regimes. The empty-tuple descriptor accepts
exactly the empty tuple; the fixed descriptor over ds accepts exactly
tuples with as many elements as ds, each element satisfying its
positional descriptor; the variadic descriptor over d accepts exactly
tuples all of whose elements satisfy d. -/
theorem tuple_arity_regimes (ds : List Desc) (d : Desc) (v : Value) :
    (validate .tupleEmpty v = true ↔
      isinst v .tupleC = true ∧ pyElems v = []) ∧
    (validate (.tupleFixed ds) v = true ↔
      isinst v .tupleC = true ∧ (pyElems v).length = ds.length ∧
        List.Forall₂ (fun dd x => validate dd x = true) ds (pyElems v)) ∧
    (validate (.tupleVariadic d) v = true ↔
      isinst v .tupleC = true ∧ ∀ x ∈ pyElems v, validate d x = true) := by
  refine ⟨?_, ?_, ?_⟩
  · cases v <;> simp [validate, isinst, pyFalsy, pyElems, List.isEmpty_iff]
  · cases v with
    | tuple xs =>
        simp only [validate, isinst, pyElems, Bool.and_eq_true, beq_iff_eq,
          true_and]
        constructor
        · rintro ⟨hlen, hfix⟩
          exact ⟨hlen, (validateFixed_forall2 ds xs hlen).mp hfix⟩
        · rintro ⟨hlen, hfa⟩
          exact ⟨hlen, (validateFixed_forall2 ds xs hlen).mpr hfa⟩
    | none => simp [validate, isinst]
    | bool b => simp [validate, isinst]
    | int n => simp [validate, isinst]
    | float q => simp [validate, isinst]
    | complex r i => simp [validate, isinst]
    | str s => simp [validate, isinst]
    | bytes bs => simp [validate, isinst]
    | list xs => simp [validate, isinst]
    | set xs => simp [validate, isinst]
    | frozenset xs => simp [validate, isinst]
    | dict es => simp [validate, isinst]
    | typeObj nm ss => simp [validate, isinst]
    | inst nm ss => simp [validate, isinst]
  · cases v <;> simp [validate, isinst, validateAll_iff]

/-- C5: numeric widening of scalars. The float scalar accepts exactly
the isinstance(value, (int, float)) values, the complex scalar exactly
the isinstance(value, (int, float, complex)) values, the bool scalar
rejects every integer, and every other scalar is the plain nominal
isinstance check for its class. -/
theorem scalar_widening (v : Value) (n : Int) (p : Prim)
    (hf : p ≠ .float) (hc : p ≠ .complex) :
    validate (.scalar .float) v = (isinst v .intC || isinst v .floatC) ∧
    validate (.scalar .complex) v =
      (isinst v .intC || isinst v .floatC || isinst v .complexC) ∧
    validate (.scalar .bool) (.int n) = false ∧
    validate (.scalar p) v = isinst v p.toClass := by
  refine ⟨by simp [validate], by simp [validate], by simp [validate, isinst, Prim.toClass], ?_⟩
  cases p <;> simp_all [validate]

/-- Witness for C5 at v = 1, n = 1, p = str. -/
theorem scalar_widening_witness :
    validate (.scalar .float) (.int 1) =
      (isinst (.int 1) .intC || isinst (.int 1) .floatC) ∧
    validate (.scalar .complex) (.int 1) =
      (isinst (.int 1) .intC || isinst (.int 1) .floatC ||
        isinst (.int 1) .complexC) ∧
    validate (.scalar .bool) (.int 1) = false ∧
    validate (.scalar .str) (.int 1) = isinst (.int 1) Prim.str.toClass :=
  scalar_widening (.int 1) 1 .str (by decide) (by decide)

/-- C6: literal membership is Python equality against the allowed
values, with no preliminary type check; in particular a Literal holding
the integer 1 accepts the boolean True. -/
theorem literal_membership (vals : List LitVal) (v : Value) :
    (validate (.literal vals) v = true ↔ ∃ u ∈ vals, litEq v u = true) ∧
    validate (.literal [.int 1]) (.bool true) = true := by
  constructor
  · simp [validate, List.any_eq_true]
  · simp [validate, litEq]

/-- C7: on every descriptor and value, evaluation with all fallible
value operations explicit returns the boolean verdict; no exception is
ever raised and every mismatch is reported as false. -/
theorem validate_total_no_exceptions (d : Desc) (v : Value) :
    validateE d v = Except.ok (validate d v) :=
  validateE_ok d v

/-- C8: validation through the cache is deterministic and independent of
what was compiled before: after compiling any sequence of descriptors
into the initially empty VALIDATORS cache, the predicate the caching
compiler returns for d computes the cache-free denotation, and compiling
d a second time yields a predicate agreeing with the first on every
value. -/
theorem validator_cache_deterministic (ds : List Desc) (d : Desc) (v : Value) :
    (validator (compileMany cacheInit ds) d).1 v = validate d v ∧
    (validator ((validator (compileMany cacheInit ds) d).2) d).1 v =
      (validator (compileMany cacheInit ds) d).1 v := by
  have hc : Coherent (compileMany cacheInit ds) :=
    coherent_compileMany ds cacheInit coherent_cacheInit
  obtain ⟨h1, h2⟩ := validator_coherent _ hc d
  obtain ⟨h3, _⟩ := validator_coherent _ h2 d
  exact ⟨h1 v, by rw [h3 v, h1 v]⟩

/-- C9: a Record descriptor is a purely nominal instance check: it
accepts exactly the instances of the named dataclass, accepts an
instance, rejects the class object itself, and the compiled predicate
(compilation never recursing into the fields of the referenced type)
computes the same nominal check. -/
theorem record_nominal_check (name : String) (supers : List String) (v : Value) :
    validate (.record name) v = isinst v (.cls name) ∧
    validate (.record name) (.inst name supers) = true ∧
    validate (.record name) (.typeObj name supers) = false ∧
    (validator cacheInit (.record name)).1 v = isinst v (.cls name) := by
  refine ⟨by simp [validate], by simp [validate, isinst],
          by simp [validate, isinst], ?_⟩
  have h := (validator_coherent cacheInit coherent_cacheInit (.record name)).1 v
  rw [h]
  simp [validate]

/-- C10: booleans are instances of int in the host language, so the int,
float and complex scalar descriptors all accept every boolean, while the
bool scalar descriptor rejects the integer 1. -/
theorem bool_satisfies_int_scalar (b : Bool) :
    validate (.scalar .int) (.bool b) = true ∧
    validate (.scalar .float) (.bool b) = true ∧
    validate (.scalar .complex) (.bool b) = true ∧
    validate (.scalar .bool) (.int 1) = false := by
  refine ⟨?_, ?_, ?_, ?_⟩ <;> simp [validate, isinst, Prim.toClass]

end CargoValidate
